import Mathlib

/-!
Verification of the sampling / clustering pipeline of the discovery-osm
repository (`src/mocked_localization`).

Road geometries are modelled through the interface the scripts consume
(shapely): an arc `length` together with an interpolate-at-distance
operation.  Randomness is modelled by explicit streams of unit draws in
`[0, 1)`; a call `numpy.random.uniform lo hi` applied to a unit draw `u`
yields `lo + (hi - lo) * u`.  Coordinates are rationals so that all
arithmetic — in particular the centroid means — is exact and executable.
-/

/-- A road geometry as the scripts consume it: an arc `length` and an
interpolation operation taking an arc-length offset to a 2D point. -/
structure RoadGeometry where
  length : ℚ
  interpolate : ℚ → ℚ × ℚ

instance : Inhabited RoadGeometry :=
  ⟨⟨0, fun _ => (0, 0)⟩⟩

/-- Pandas series repetition: each element repeated `n` times, consecutively
(the embedding of `Series.repeat`, used on geometries and lengths). -/
def repeatEach (l : List α) (n : Nat) : List α :=
  l.flatMap (fun a => List.replicate n a)

/-- Embedding of a `numpy.random.uniform lo hi` draw obtained from a unit
draw `u` of the pseudo-random stream. -/
def uniformDraw (lo hi u : ℚ) : ℚ :=
  lo + (hi - lo) * u

/-- Shallow embedding of `sample_noisy_nodes`
(`src/mocked_localization/streets_as_noisy_nodes.py`): repeat every geometry
and its length `numSamples` times, interpolate each copy at a random
fraction of its length, and add per-axis uniform noise in
`[-noiseLevel, noiseLevel)`.  The streams `fac`, `ux`, `uy` supply the unit
draws consumed by `np.random.rand` and `np.random.uniform`. -/
def sample_noisy_nodes (edges : List RoadGeometry) (numSamples : Nat)
    (noiseLevel : ℚ) (fac ux uy : Nat → ℚ) : List ℚ × List ℚ :=
  let repeatedGeoms := repeatEach edges numSamples
  let repeatedLengths := repeatEach (edges.map RoadGeometry.length) numSamples
  let randomDistances :=
    List.zipWith (fun L i => L * fac i) repeatedLengths
      (List.range repeatedLengths.length)
  let points :=
    List.zipWith (fun g d => RoadGeometry.interpolate g d) repeatedGeoms
      randomDistances
  let finalX :=
    List.zipWith (fun p i => p.1 + uniformDraw (-noiseLevel) noiseLevel (ux i))
      points (List.range points.length)
  let finalY :=
    List.zipWith (fun p i => p.2 + uniformDraw (-noiseLevel) noiseLevel (uy i))
      points (List.range points.length)
  (finalX, finalY)

/-- One row of the clustered dataframe of
`streets_as_cluster_nodes.py`: the coordinates and the cluster label. -/
structure LPoint where
  x : ℚ
  y : ℚ
  cluster : Int
  deriving DecidableEq

instance : Inhabited LPoint :=
  ⟨⟨0, 0, -1⟩⟩

/-- Group keys produced by a pandas groupby on the label column: the
distinct labels, in ascending order. -/
def groupKeys (valid : List LPoint) : List Int :=
  ((valid.map LPoint.cluster).dedup).mergeSort (fun a b => decide (a ≤ b))

/-- The mean of the `x` coordinates and of the `y` coordinates over the rows
carrying label `l`. -/
def meanPair (valid : List LPoint) (l : Int) : ℚ × ℚ :=
  let grp := valid.filter (fun p => p.cluster = l)
  ((grp.map LPoint.x).sum / grp.length, (grp.map LPoint.y).sum / grp.length)

/-- The pandas `groupby(cluster)[[x, y]].mean()` step: group keys are the
distinct labels in ascending order, each mapped to the mean of `x` and the
mean of `y` of its group. -/
def groupbyMeanXY (valid : List LPoint) : List (Int × ℚ × ℚ) :=
  (groupKeys valid).map (fun l => (l, meanPair valid l))

/-- Shallow embedding of `recover_center_points`
(`src/mocked_localization/streets_as_cluster_nodes.py`): drop the noise rows
(label `-1`), then group by label and take the mean of `x` and of `y` per
group. -/
def recover_center_points (df : List LPoint) : List (Int × ℚ × ℚ) :=
  let valid := df.filter (fun p => p.cluster ≠ -1)
  groupbyMeanXY valid

/-- State-passing embedding of `recover_center_points`: alongside the
result, return the input dataframe as it stands after the call.  Both pandas
operations in the body (boolean-mask filtering and the groupby mean) build
fresh objects and leave their argument untouched, which is what the threaded
state records. -/
def recover_center_points_st (df : List LPoint) :
    List LPoint × List (Int × ℚ × ℚ) :=
  let maskOut := (df, df.filter (fun p => p.cluster ≠ -1))
  let groupOut := (maskOut.1, groupbyMeanXY maskOut.2)
  groupOut

/-- Embedding of the persisted artifact written at the end of
`streets_as_cluster_nodes.main`: `noisy_points_df.to_csv(path, index=False)`
on a dataframe whose columns are exactly `x`, `y`, `cluster` emits a header
line followed by one comma-delimited row per point, with no index column. -/
def toCsvLines (df : List LPoint) : List String :=
  let comma := String.mk [',']
  let header := String.intercalate comma [String.mk ['x'], String.mk ['y'],
    String.mk ['c', 'l', 'u', 's', 't', 'e', 'r']]
  header :: df.map (fun p =>
    String.intercalate comma [toString p.x, toString p.y, toString p.cluster])

theorem repeatEach_length (l : List α) (n : Nat) :
    (repeatEach l n).length = l.length * n := by
  induction l with
  | nil => simp [repeatEach]
  | cons a t ih =>
    simp only [repeatEach, List.flatMap_cons, List.length_append,
      List.length_replicate, List.length_cons, Nat.succ_mul] at *
    omega

/-- C1: for every geometry collection of `G` road geometries, every sample
count `N` and every noise magnitude, the point sampler returns coordinate
collections (and hence a flat collection of `(x, y)` points) of size exactly
`N * G`. -/
theorem sample_noisy_nodes_count (edges : List RoadGeometry) (numSamples : Nat)
    (noiseLevel : ℚ) (fac ux uy : Nat → ℚ) :
    (sample_noisy_nodes edges numSamples noiseLevel fac ux uy).1.length =
      numSamples * edges.length ∧
    (sample_noisy_nodes edges numSamples noiseLevel fac ux uy).2.length =
      numSamples * edges.length ∧
    ((sample_noisy_nodes edges numSamples noiseLevel fac ux uy).1.zip
      (sample_noisy_nodes edges numSamples noiseLevel fac ux uy).2).length =
      numSamples * edges.length := by
  simp only [sample_noisy_nodes, List.length_zip, List.length_zipWith,
    List.length_range, List.length_map, repeatEach_length, inf_idem]
  exact ⟨Nat.mul_comm _ _, Nat.mul_comm _ _, Nat.mul_comm _ _⟩

/-- C9: the state-passing embedding of `recover_center_points` returns its
input dataframe unchanged — same rows, same coordinates and labels, same
order and count — together with the same centroids the pure function
computes. -/
theorem recover_center_points_frame (df : List LPoint) :
    (recover_center_points_st df).1 = df ∧
    (recover_center_points_st df).2 = recover_center_points df := by
  constructor <;> rfl

theorem mem_groupKeys (valid : List LPoint) (l : Int) :
    l ∈ groupKeys valid ↔ ∃ p ∈ valid, p.cluster = l := by
  unfold groupKeys
  rw [(List.mergeSort_perm _ _).mem_iff, List.mem_dedup, List.mem_map]

theorem groupKeys_nodup (valid : List LPoint) : (groupKeys valid).Nodup :=
  ((List.mergeSort_perm _ _).nodup_iff).2 (List.nodup_dedup _)

theorem map_fst_keyed (ks : List Int) (f : Int → ℚ × ℚ) :
    (ks.map (fun l => (l, f l))).map Prod.fst = ks := by
  induction ks with
  | nil => rfl
  | cons a t ih => simp [ih]

theorem mem_groupbyMeanXY (valid : List LPoint) (l : Int) (c : ℚ × ℚ) :
    (l, c) ∈ groupbyMeanXY valid ↔
      l ∈ groupKeys valid ∧ c = meanPair valid l := by
  simp only [groupbyMeanXY, List.mem_map, Prod.mk.injEq]
  constructor
  · rintro ⟨a, ha, rfl, rfl⟩
    exact ⟨ha, rfl⟩
  · rintro ⟨hl, rfl⟩
    exact ⟨l, hl, rfl, rfl⟩

theorem filter_label_of_ne (df : List LPoint) (l : Int) (hl : l ≠ -1) :
    (df.filter (fun p => p.cluster ≠ -1)).filter (fun p => p.cluster = l) =
      df.filter (fun p => p.cluster = l) := by
  rw [List.filter_filter]
  apply List.filter_congr
  intro a _
  by_cases h : a.cluster = l
  · simp [h, hl]
  · simp [h]

/-- C3: recovery of the centroids returns exactly one entry per distinct
non-noise label of the input, mapping it to the arithmetic mean of the `x`
coordinates and of the `y` coordinates of the points carrying that label;
noise rows (label `-1`) contribute to no centroid, and an input whose rows
are all noise yields the empty mapping rather than an error. -/
theorem recover_center_points_spec (df : List LPoint) :
    ((recover_center_points df).map Prod.fst).Nodup ∧
    (∀ l : Int, (∃ c, (l, c) ∈ recover_center_points df) ↔
      (l ≠ -1 ∧ ∃ p ∈ df, p.cluster = l)) ∧
    (∀ l cx cy, (l, (cx, cy)) ∈ recover_center_points df →
      cx = ((df.filter (fun p => p.cluster = l)).map LPoint.x).sum /
        ((df.filter (fun p => p.cluster = l)).length : ℚ) ∧
      cy = ((df.filter (fun p => p.cluster = l)).map LPoint.y).sum /
        ((df.filter (fun p => p.cluster = l)).length : ℚ)) ∧
    ((∀ p ∈ df, p.cluster = -1) → recover_center_points df = []) := by
  have hrec : recover_center_points df =
      groupbyMeanXY (df.filter (fun p => p.cluster ≠ -1)) := rfl
  have hlne : ∀ l : Int, l ∈ groupKeys (df.filter (fun p => p.cluster ≠ -1)) →
      l ≠ -1 := by
    intro l hk
    obtain ⟨p, hp, hcl⟩ := (mem_groupKeys _ _).1 hk
    have := (List.mem_filter.1 hp).2
    simp only [ne_eq, decide_eq_true_eq] at this
    exact hcl ▸ this
  refine ⟨?_, ?_, ?_, ?_⟩
  · rw [hrec, groupbyMeanXY, map_fst_keyed]
    exact groupKeys_nodup _
  · intro l
    constructor
    · rintro ⟨c, hmem⟩
      rw [hrec] at hmem
      obtain ⟨hk, _⟩ := (mem_groupbyMeanXY _ _ _).1 hmem
      obtain ⟨p, hp, hcl⟩ := (mem_groupKeys _ _).1 hk
      exact ⟨hlne l hk, p, (List.mem_filter.1 hp).1, hcl⟩
    · rintro ⟨hl, p, hp, hcl⟩
      have hv : p ∈ df.filter (fun q => q.cluster ≠ -1) :=
        List.mem_filter.2 ⟨hp, by simp [hcl, hl]⟩
      have hk : l ∈ groupKeys (df.filter (fun q => q.cluster ≠ -1)) :=
        (mem_groupKeys _ _).2 ⟨p, hv, hcl⟩
      exact ⟨_, hrec ▸ (mem_groupbyMeanXY _ _ _).2 ⟨hk, rfl⟩⟩
  · intro l cx cy hmem
    rw [hrec] at hmem
    obtain ⟨hk, hc⟩ := (mem_groupbyMeanXY _ _ _).1 hmem
    have hl := hlne l hk
    have hmp : meanPair (df.filter (fun p => p.cluster ≠ -1)) l =
        (((df.filter (fun p => p.cluster = l)).map LPoint.x).sum /
          ((df.filter (fun p => p.cluster = l)).length : ℚ),
         ((df.filter (fun p => p.cluster = l)).map LPoint.y).sum /
          ((df.filter (fun p => p.cluster = l)).length : ℚ)) := by
      rw [meanPair]
      rw [filter_label_of_ne df l hl]
    rw [hmp] at hc
    exact ⟨congrArg Prod.fst hc, congrArg Prod.snd hc⟩
  · intro hall
    have hv : df.filter (fun p => p.cluster ≠ -1) = [] :=
      List.filter_eq_nil_iff.2 (fun a ha => by simp [hall a ha])
    rw [hrec, hv, groupbyMeanXY, groupKeys]
    simp

/-- C3 witness: on a concrete all-noise input the recovered mapping is
empty. -/
theorem recover_center_points_spec_w :
    recover_center_points [LPoint.mk 5 5 (-1)] = [] :=
  (recover_center_points_spec [LPoint.mk 5 5 (-1)]).2.2.2 (by decide)

/-- C10: only the exact label `-1` is excluded from centroid recovery; any
other label present in the input — including other negative integers such as
`-2` — receives a centroid entry. -/
theorem recover_center_points_nonNoise_label (df : List LPoint) (l : Int)
    (h1 : l ≠ -1) (h2 : ∃ p ∈ df, p.cluster = l) :
    ∃ cx cy, (l, (cx, cy)) ∈ recover_center_points df := by
  obtain ⟨p, hp, hcl⟩ := h2
  have hv : p ∈ df.filter (fun q => q.cluster ≠ -1) :=
    List.mem_filter.2 ⟨hp, by simp [hcl, h1]⟩
  have hk : l ∈ groupKeys (df.filter (fun q => q.cluster ≠ -1)) :=
    (mem_groupKeys _ _).2 ⟨p, hv, hcl⟩
  exact ⟨(meanPair (df.filter (fun q => q.cluster ≠ -1)) l).1,
    (meanPair (df.filter (fun q => q.cluster ≠ -1)) l).2,
    (mem_groupbyMeanXY _ _ _).2 ⟨hk, rfl⟩⟩

/-- C10 witness: the label `-2` gets a centroid entry on a concrete input
that also holds a noise row. -/
theorem recover_center_points_nonNoise_label_w :
    ∃ cx cy, ((-2 : Int), (cx, cy)) ∈
      recover_center_points [LPoint.mk 1 2 (-2), LPoint.mk 3 4 (-1)] :=
  recover_center_points_nonNoise_label _ _ (by decide) (by decide)

/-- C8: the persisted tabular dump is a delimited-text table whose header
row names exactly the columns `x`, `y`, `cluster`, followed by one
comma-delimited data row of exactly those three fields per sampled point —
no extra index column. -/
theorem toCsvLines_spec (df : List LPoint) :
    (toCsvLines df).length = df.length + 1 ∧
    (toCsvLines df).headI = "x,y,cluster" ∧
    (toCsvLines df).tail = df.map (fun p =>
      String.intercalate (String.mk [','])
        [toString p.x, toString p.y, toString p.cluster]) := by
  refine ⟨?_, rfl, rfl⟩
  simp [toCsvLines]

theorem zipWith_replicate_left (f : α → β → γ) (a : α) (l : List β) :
    List.zipWith f (List.replicate l.length a) l = l.map (f a) := by
  induction l with
  | nil => rfl
  | cons b t ih => simpa [List.replicate_succ] using ih

theorem zipWith_map_left_self (f : β → α → γ) (h : α → β) (l : List α) :
    List.zipWith f (l.map h) l = l.map (fun a => f (h a) a) := by
  induction l with
  | nil => rfl
  | cons b t ih => simpa using ih

/-- Closed form of the sampler on a single geometry: the i-th sample
interpolates at `length * fac i` and shifts by the uniform noise draws. -/
theorem sample_single_eq (g : RoadGeometry) (N : Nat) (ε : ℚ)
    (fac ux uy : Nat → ℚ) :
    sample_noisy_nodes [g] N ε fac ux uy =
      ((List.range N).map (fun i =>
         (g.interpolate (g.length * fac i)).1 + uniformDraw (-ε) ε (ux i)),
       (List.range N).map (fun i =>
         (g.interpolate (g.length * fac i)).2 + uniformDraw (-ε) ε (uy i))) := by
  have h1 : repeatEach [g] N = List.replicate N g := by
    simp [repeatEach]
  have h2 : repeatEach ([g].map RoadGeometry.length) N =
      List.replicate N g.length := by
    simp [repeatEach]
  have hlen : (List.replicate N g.length).length = N := List.length_replicate ..
  rw [sample_noisy_nodes]
  simp only [h1, h2, List.length_replicate]
  rw [show List.replicate N g.length =
    List.replicate (List.range N).length g.length by simp]
  rw [zipWith_replicate_left]
  rw [show List.replicate N g =
    List.replicate ((List.range N).map (fun i => g.length * fac i)).length g
      by simp]
  rw [zipWith_replicate_left, List.map_map]
  simp only [List.length_map, List.length_range, Function.comp_def]
  simp only [zipWith_map_left_self]

theorem getD_map_range (f : Nat → ℚ) (n i : Nat) (hi : i < n) :
    ((List.range n).map f).getD i 0 = f i := by
  rw [List.getD_eq_getElem?_getD, List.getElem?_map, List.getElem?_range hi]
  rfl

/-- A degenerate road geometry of arc length zero (a polyline whose points
coincide), as shapely happily produces. -/
def zeroLengthGeom : RoadGeometry :=
  ⟨0, fun _ => (0, 0)⟩

/-- C2 counterexample: on a zero-length geometry the sampler still emits a
sample, yet the half-open offset interval `[0, length) = [0, 0)` is empty,
so no sample can be described by an offset in that interval as the claim
requires. -/
theorem sample_noisy_nodes_zero_length_cx :
    (sample_noisy_nodes [zeroLengthGeom] 1 0
      (fun _ => 0) (fun _ => 0) (fun _ => 0)).1.length = 1 ∧
    ¬ ∃ t : ℚ, 0 ≤ t ∧ t < zeroLengthGeom.length := by
  constructor
  · rw [sample_single_eq]
    simp
  · rintro ⟨t, h0, h1⟩
    have : (0 : ℚ) < 0 := lt_of_le_of_lt h0 h1
    exact absurd this (lt_irrefl 0)

/-- C2 (amended): every sample of the sampler on a geometry of nonnegative
length `L` interpolates at an offset `t` with `0 ≤ t ≤ L` — and `t < L`
whenever `L > 0`, so the offset lies in `[0, L)` for every non-degenerate
geometry — then adds per-axis uniform noise in `[-ε, ε]`; consequently the
sample lies within Euclidean distance `ε * sqrt 2` of a point of the
geometry. -/
theorem sample_noisy_nodes_sample_spec (g : RoadGeometry) (N : Nat) (ε : ℚ)
    (fac ux uy : Nat → ℚ) (i : Nat) (hi : i < N)
    (hL : 0 ≤ g.length) (hε : 0 ≤ ε)
    (hfac0 : 0 ≤ fac i) (hfac1 : fac i < 1)
    (hux0 : 0 ≤ ux i) (hux1 : ux i ≤ 1)
    (huy0 : 0 ≤ uy i) (huy1 : uy i ≤ 1) :
    ∃ t nx ny : ℚ,
      0 ≤ t ∧ t ≤ g.length ∧ (0 < g.length → t < g.length) ∧
      -ε ≤ nx ∧ nx ≤ ε ∧ -ε ≤ ny ∧ ny ≤ ε ∧
      (sample_noisy_nodes [g] N ε fac ux uy).1.getD i 0 =
        (g.interpolate t).1 + nx ∧
      (sample_noisy_nodes [g] N ε fac ux uy).2.getD i 0 =
        (g.interpolate t).2 + ny ∧
      Real.sqrt ((((sample_noisy_nodes [g] N ε fac ux uy).1.getD i 0 -
          (g.interpolate t).1 : ℚ) : ℝ) ^ 2 +
        (((sample_noisy_nodes [g] N ε fac ux uy).2.getD i 0 -
          (g.interpolate t).2 : ℚ) : ℝ) ^ 2) ≤ ε * Real.sqrt 2 := by
  have hx : (sample_noisy_nodes [g] N ε fac ux uy).1.getD i 0 =
      (g.interpolate (g.length * fac i)).1 + uniformDraw (-ε) ε (ux i) := by
    rw [sample_single_eq]
    exact getD_map_range _ _ _ hi
  have hy : (sample_noisy_nodes [g] N ε fac ux uy).2.getD i 0 =
      (g.interpolate (g.length * fac i)).2 + uniformDraw (-ε) ε (uy i) := by
    rw [sample_single_eq]
    exact getD_map_range _ _ _ hi
  refine ⟨g.length * fac i, uniformDraw (-ε) ε (ux i), uniformDraw (-ε) ε (uy i),
    mul_nonneg hL hfac0, ?_, ?_, ?_, ?_, ?_, ?_, hx, hy, ?_⟩
  · exact mul_le_of_le_one_right hL hfac1.le
  · intro hpos
    exact mul_lt_of_lt_one_right hpos hfac1
  · unfold uniformDraw
    nlinarith [mul_nonneg hε hux0]
  · unfold uniformDraw
    nlinarith [mul_nonneg hε (sub_nonneg.2 hux1)]
  · unfold uniformDraw
    nlinarith [mul_nonneg hε huy0]
  · unfold uniformDraw
    nlinarith [mul_nonneg hε (sub_nonneg.2 huy1)]
  · rw [hx, hy]
    have hda : ((g.interpolate (g.length * fac i)).1 +
        uniformDraw (-ε) ε (ux i) - (g.interpolate (g.length * fac i)).1) =
        uniformDraw (-ε) ε (ux i) := by ring
    have hdb : ((g.interpolate (g.length * fac i)).2 +
        uniformDraw (-ε) ε (uy i) - (g.interpolate (g.length * fac i)).2) =
        uniformDraw (-ε) ε (uy i) := by ring
    rw [hda, hdb]
    have hbx : (uniformDraw (-ε) ε (ux i)) ^ 2 ≤ ε ^ 2 := by
      unfold uniformDraw
      nlinarith [mul_nonneg hε hux0, mul_nonneg hε (sub_nonneg.2 hux1)]
    have hby : (uniformDraw (-ε) ε (uy i)) ^ 2 ≤ ε ^ 2 := by
      unfold uniformDraw
      nlinarith [mul_nonneg hε huy0, mul_nonneg hε (sub_nonneg.2 huy1)]
    have hsum : ((uniformDraw (-ε) ε (ux i) : ℚ) : ℝ) ^ 2 +
        ((uniformDraw (-ε) ε (uy i) : ℚ) : ℝ) ^ 2 ≤ 2 * ((ε : ℚ) : ℝ) ^ 2 := by
      have hx2 : ((uniformDraw (-ε) ε (ux i) : ℚ) : ℝ) ^ 2 ≤ ((ε : ℚ) : ℝ) ^ 2 := by
        exact_mod_cast hbx
      have hy2 : ((uniformDraw (-ε) ε (uy i) : ℚ) : ℝ) ^ 2 ≤ ((ε : ℚ) : ℝ) ^ 2 := by
        exact_mod_cast hby
      linarith
    calc Real.sqrt (((uniformDraw (-ε) ε (ux i) : ℚ) : ℝ) ^ 2 +
          ((uniformDraw (-ε) ε (uy i) : ℚ) : ℝ) ^ 2)
        ≤ Real.sqrt (2 * ((ε : ℚ) : ℝ) ^ 2) := Real.sqrt_le_sqrt hsum
      _ = Real.sqrt 2 * Real.sqrt (((ε : ℚ) : ℝ) ^ 2) :=
          Real.sqrt_mul (by norm_num) _
      _ = Real.sqrt 2 * ((ε : ℚ) : ℝ) := by
          rw [Real.sqrt_sq (by exact_mod_cast hε)]
      _ = ((ε : ℚ) : ℝ) * Real.sqrt 2 := mul_comm _ _

/-- C2 witness: the amended sample description holds on a concrete unit
segment with concrete draws. -/
theorem sample_noisy_nodes_sample_spec_w :
    ∃ t nx ny : ℚ,
      0 ≤ t ∧ t ≤ (RoadGeometry.mk 1 (fun s => (s, 0))).length ∧
      (0 < (RoadGeometry.mk 1 (fun s => (s, 0))).length →
        t < (RoadGeometry.mk 1 (fun s => (s, 0))).length) ∧
      -(1 : ℚ) ≤ nx ∧ nx ≤ 1 ∧ -(1 : ℚ) ≤ ny ∧ ny ≤ 1 ∧
      (sample_noisy_nodes [RoadGeometry.mk 1 (fun s => (s, 0))] 1 1
        (fun _ => 1/2) (fun _ => 1/2) (fun _ => 1/2)).1.getD 0 0 =
        ((RoadGeometry.mk 1 (fun s => (s, 0))).interpolate t).1 + nx ∧
      (sample_noisy_nodes [RoadGeometry.mk 1 (fun s => (s, 0))] 1 1
        (fun _ => 1/2) (fun _ => 1/2) (fun _ => 1/2)).2.getD 0 0 =
        ((RoadGeometry.mk 1 (fun s => (s, 0))).interpolate t).2 + ny ∧
      Real.sqrt ((((sample_noisy_nodes [RoadGeometry.mk 1 (fun s => (s, 0))] 1 1
          (fun _ => 1/2) (fun _ => 1/2) (fun _ => 1/2)).1.getD 0 0 -
          ((RoadGeometry.mk 1 (fun s => (s, 0))).interpolate t).1 : ℚ) : ℝ) ^ 2 +
        (((sample_noisy_nodes [RoadGeometry.mk 1 (fun s => (s, 0))] 1 1
          (fun _ => 1/2) (fun _ => 1/2) (fun _ => 1/2)).2.getD 0 0 -
          ((RoadGeometry.mk 1 (fun s => (s, 0))).interpolate t).2 : ℚ) : ℝ) ^ 2) ≤
        (1 : ℚ) * Real.sqrt 2 :=
  sample_noisy_nodes_sample_spec (RoadGeometry.mk 1 (fun s => (s, 0))) 1 1
    (fun _ => 1/2) (fun _ => 1/2) (fun _ => 1/2) 0 (by norm_num)
    (by norm_num) (by norm_num) (by norm_num) (by norm_num)
    (by norm_num) (by norm_num) (by norm_num) (by norm_num)

/-- Squared Euclidean distance between two sampled points. -/
def distSq (p q : ℚ × ℚ) : ℚ :=
  (p.1 - q.1) ^ 2 + (p.2 - q.2) ^ 2

/-- Modelled from the spec: the clustering stage is delegated to an external
density-based clustering library whose code is not part of the repository;
section 4.2 of the specification states the rule.  A point is a core point
when at least `minPts` points of the input (itself included) lie within
distance `eps` of it. -/
def isCore (eps : ℚ) (minPts : Nat) (pts : List (ℚ × ℚ)) (p : ℚ × ℚ) : Bool :=
  decide (minPts ≤ (pts.filter (fun q => decide (distSq p q ≤ eps ^ 2))).length)

/-- Modelled from the spec: a point is noise precisely when no core point
lies within `eps` of it (section 4.2: points reachable by no core point
receive the noise label). -/
def isNoisePt (eps : ℚ) (minPts : Nat) (pts : List (ℚ × ℚ)) (p : ℚ × ℚ) : Bool :=
  !(pts.any (fun q => isCore eps minPts pts q && decide (distSq p q ≤ eps ^ 2)))

/-- One expansion step of density-connectivity inside the core set. -/
def expandStep (eps : ℚ) (cores acc : List (ℚ × ℚ)) : List (ℚ × ℚ) :=
  cores.filter (fun d => acc.contains d ||
    acc.any (fun a => decide (distSq a d ≤ eps ^ 2)))

/-- Density-connected closure of a seed inside the core set, by fuelled
iteration of `expandStep`. -/
def coreClosure (eps : ℚ) (cores : List (ℚ × ℚ)) :
    Nat → List (ℚ × ℚ) → List (ℚ × ℚ)
  | 0, acc => acc
  | n + 1, acc => coreClosure eps cores n (expandStep eps cores acc)

/-- The representative of a core point's cluster: the first core point of
the input order that is density-connected to it. -/
def coreRep (eps : ℚ) (cores : List (ℚ × ℚ)) (c : ℚ × ℚ) : ℚ × ℚ :=
  (cores.find? (fun d =>
    (coreClosure eps cores cores.length [c]).contains d)).getD c

/-- Modelled from the spec: DBSCAN labelling (section 4.2).  Every point
receives an integer label: `-1` when no core point lies within `eps`
(noise), and otherwise the index of the cluster of the first core point
within `eps` in input order — implementations attach a border point to
whichever cluster reaches it first, so that label can depend on the input
order. -/
def dbscanLabels (eps : ℚ) (minPts : Nat) (pts : List (ℚ × ℚ)) : List Int :=
  let cores := pts.filter (fun q => isCore eps minPts pts q)
  let reps := (cores.map (fun c => coreRep eps cores c)).dedup
  pts.map (fun p =>
    match cores.find? (fun q => decide (distSq p q ≤ eps ^ 2)) with
    | none => -1
    | some q => (reps.indexOf (coreRep eps cores q) : Int))

/-- The clustering stage as `streets_as_cluster_nodes.main` invokes it:
scikit-learn's `fit_predict` validates its input matrix first and rejects an
empty sample array (it requires at least one sample), raising an error
instead of clustering; the raised message is returned through `Except`. -/
def fit_predict (eps : ℚ) (minPts : Nat) (pts : List (ℚ × ℚ)) :
    Except String (List Int) :=
  if pts.length < 1 then
    Except.error ("Found array with 0 samples while a minimum of 1 is required")
  else
    Except.ok (dbscanLabels eps minPts pts)

/-- C6: on an empty input the clustering stage as invoked by the script does
not return an empty labelling — the library's input validation rejects the
empty array — although the density-based rule itself would produce the empty
labelling, which is what the claim (and the spec) expect. -/
theorem fit_predict_empty (eps : ℚ) (minPts : Nat) :
    fit_predict eps minPts [] =
      Except.error
        ("Found array with 0 samples while a minimum of 1 is required") ∧
    dbscanLabels eps minPts [] = [] := by
  constructor <;> rfl

/-- First run order for the order-dependence counterexample: a four-point
cluster near the origin, a four-point cluster near `x = 7..8`, and one
border point `(4, 1)` within `eps` of exactly one core of each cluster. -/
def ptsRun1 : List (ℚ × ℚ) :=
  [(0, 0), (0, 1), (1, 0), (1, 1), (4, 1), (7, 0), (7, 1), (8, 0), (8, 1)]

/-- The same point set as `ptsRun1` with the two clusters swapped in the
input order. -/
def ptsRun2 : List (ℚ × ℚ) :=
  [(7, 0), (7, 1), (8, 0), (8, 1), (4, 1), (0, 0), (0, 1), (1, 0), (1, 1)]

unseal Rat.add Rat.mul Rat.sub Rat.inv in
/-- C7 counterexample: the two runs are permutations of one another with
identical `eps = 3`, `minPts = 4`, yet the border point `(4, 1)` (index 4 in
both orders) lands in the same cluster as `(1, 1)` in the first order and in
a different (non-noise) cluster in the second order: the partitions into
clusters differ, not merely the label values. -/
theorem dbscan_order_dependence_cx :
    ptsRun1.Perm ptsRun2 ∧
    (dbscanLabels 3 4 ptsRun1).getD 4 0 = (dbscanLabels 3 4 ptsRun1).getD 3 0 ∧
    (dbscanLabels 3 4 ptsRun1).getD 4 0 ≠ -1 ∧
    (dbscanLabels 3 4 ptsRun2).getD 4 0 ≠ (dbscanLabels 3 4 ptsRun2).getD 8 0 ∧
    (dbscanLabels 3 4 ptsRun2).getD 4 0 ≠ -1 ∧
    (dbscanLabels 3 4 ptsRun2).getD 8 0 ≠ -1 ∧
    ptsRun1.getD 4 (0, 0) = ptsRun2.getD 4 (0, 0) ∧
    ptsRun1.getD 3 (0, 0) = ptsRun2.getD 8 (0, 0) := by
  decide

theorem natCast_ne_neg_one (n : Nat) : (n : Int) ≠ -1 := by
  omega

theorem any_congr (l : List α) (f g : α → Bool) (h : ∀ a ∈ l, f a = g a) :
    l.any f = l.any g := by
  induction l with
  | nil => rfl
  | cons a t ih =>
    simp only [List.any_cons, h a (List.mem_cons_self a t)]
    rw [ih (fun b hb => h b (List.mem_cons_of_mem a hb))]

theorem perm_any {l₁ l₂ : List α} (h : l₁.Perm l₂) (f : α → Bool) :
    l₁.any f = l₂.any f := by
  induction h with
  | nil => rfl
  | cons a _ ih => simp only [List.any_cons, ih]
  | swap a b l => simp only [List.any_cons, Bool.or_left_comm]
  | trans _ _ ih1 ih2 => exact ih1.trans ih2

theorem isCore_perm (eps : ℚ) (minPts : Nat) {pts1 pts2 : List (ℚ × ℚ)}
    (hp : pts1.Perm pts2) (p : ℚ × ℚ) :
    isCore eps minPts pts1 p = isCore eps minPts pts2 p := by
  unfold isCore
  rw [(hp.filter _).length_eq]

theorem isNoisePt_perm (eps : ℚ) (minPts : Nat) {pts1 pts2 : List (ℚ × ℚ)}
    (hp : pts1.Perm pts2) (p : ℚ × ℚ) :
    isNoisePt eps minPts pts1 p = isNoisePt eps minPts pts2 p := by
  unfold isNoisePt
  rw [perm_any hp]
  rw [any_congr pts2 _ _ (fun q _ => by rw [isCore_perm eps minPts hp q])]

/-- Relates the labelling to the declarative noise predicate: a point's
label is `-1` exactly when no core point lies within `eps` of it. -/
theorem dbscan_label_eq_neg_one_iff (eps : ℚ) (minPts : Nat)
    (pts : List (ℚ × ℚ)) (i : Nat) (hi : i < pts.length) :
    ((dbscanLabels eps minPts pts).getD i 0 = -1) ↔
      isNoisePt eps minPts pts (pts.getD i (0, 0)) = true := by
  set p := pts.getD i (0, 0) with hpdef
  have hget : (dbscanLabels eps minPts pts).getD i 0 =
      (match (pts.filter (fun q => isCore eps minPts pts q)).find?
          (fun q => decide (distSq p q ≤ eps ^ 2)) with
      | none => (-1 : Int)
      | some q =>
        (((pts.filter (fun q => isCore eps minPts pts q)).map
          (fun c => coreRep eps (pts.filter (fun q => isCore eps minPts pts q)) c)).dedup.indexOf
            (coreRep eps (pts.filter (fun q => isCore eps minPts pts q)) q) : Int)) := by
    show (List.map _ pts).getD i 0 = _
    rw [List.getD_eq_getElem?_getD, List.getElem?_map,
      List.getElem?_eq_getElem hi]
    rw [hpdef, List.getD_eq_getElem?_getD, List.getElem?_eq_getElem hi]
    rfl
  rw [hget]
  cases hfind : (pts.filter (fun q => isCore eps minPts pts q)).find?
      (fun q => decide (distSq p q ≤ eps ^ 2)) with
  | none =>
    rw [List.find?_eq_none] at hfind
    constructor
    · intro _
      unfold isNoisePt
      simp only [Bool.not_eq_true', List.any_eq_false]
      intro q hq
      by_cases hc : isCore eps minPts pts q = true
      · have hnd := hfind q (List.mem_filter.2 ⟨hq, hc⟩)
        simp only [hc, Bool.true_and]
        exact hnd
      · simp [hc]
    · intro _
      rfl
  | some q =>
    have hqmem := List.mem_of_find?_eq_some hfind
    have hqd := List.find?_some hfind
    have hqcore := (List.mem_filter.1 hqmem).2
    constructor
    · intro habs
      exact absurd habs (natCast_ne_neg_one _)
    · intro hnoise
      unfold isNoisePt at hnoise
      simp only [Bool.not_eq_true', List.any_eq_false] at hnoise
      have hq2 := hnoise q (List.mem_filter.1 hqmem).1
      rw [Bool.and_eq_true] at hq2
      exact absurd ⟨hqcore, hqd⟩ hq2

/-- C7 (amended): for a fixed point set and fixed parameters, core-point
status and noise status of every point are independent of the input order:
the core set and the noise set are the same multiset for any two orderings,
and a point's label is `-1` exactly when the order-independent noise
predicate holds.  The partition of the border points into clusters, however,
may genuinely differ between orderings (see the counterexample), so only
these parts of the claim hold. -/
theorem dbscan_perm_invariant (eps : ℚ) (minPts : Nat)
    (pts1 pts2 : List (ℚ × ℚ)) (hp : pts1.Perm pts2) :
    (∀ p, isCore eps minPts pts1 p = isCore eps minPts pts2 p) ∧
    (∀ p, isNoisePt eps minPts pts1 p = isNoisePt eps minPts pts2 p) ∧
    (pts1.filter (fun p => isCore eps minPts pts1 p)).Perm
      (pts2.filter (fun p => isCore eps minPts pts2 p)) ∧
    (pts1.filter (fun p => isNoisePt eps minPts pts1 p)).Perm
      (pts2.filter (fun p => isNoisePt eps minPts pts2 p)) ∧
    (∀ i, i < pts1.length →
      (((dbscanLabels eps minPts pts1).getD i 0 = -1) ↔
        isNoisePt eps minPts pts1 (pts1.getD i (0, 0)) = true)) ∧
    (∀ i, i < pts2.length →
      (((dbscanLabels eps minPts pts2).getD i 0 = -1) ↔
        isNoisePt eps minPts pts2 (pts2.getD i (0, 0)) = true)) := by
  refine ⟨isCore_perm eps minPts hp, isNoisePt_perm eps minPts hp, ?_, ?_,
    fun i hi => dbscan_label_eq_neg_one_iff eps minPts pts1 i hi,
    fun i hi => dbscan_label_eq_neg_one_iff eps minPts pts2 i hi⟩
  · have h1 := hp.filter (fun p => isCore eps minPts pts1 p)
    have h2 : pts2.filter (fun p => isCore eps minPts pts1 p) =
        pts2.filter (fun p => isCore eps minPts pts2 p) :=
      List.filter_congr (fun a _ => isCore_perm eps minPts hp a)
    exact h2 ▸ h1
  · have h1 := hp.filter (fun p => isNoisePt eps minPts pts1 p)
    have h2 : pts2.filter (fun p => isNoisePt eps minPts pts1 p) =
        pts2.filter (fun p => isNoisePt eps minPts pts2 p) :=
      List.filter_congr (fun a _ => isNoisePt_perm eps minPts hp a)
    exact h2 ▸ h1

/-- C7 witness: the order-invariance of the noise status holds on a concrete
two-point set given in its two orders. -/
theorem dbscan_perm_invariant_w :
    isNoisePt 1 1 [((0 : ℚ), (0 : ℚ)), ((1 : ℚ), (0 : ℚ))] (0, 0) =
      isNoisePt 1 1 [((1 : ℚ), (0 : ℚ)), ((0 : ℚ), (0 : ℚ))] (0, 0) ∧
    ([((0 : ℚ), (0 : ℚ)), ((1 : ℚ), (0 : ℚ))].filter
      (fun p => isNoisePt 1 1 [((0 : ℚ), (0 : ℚ)), ((1 : ℚ), (0 : ℚ))] p)).Perm
      ([((1 : ℚ), (0 : ℚ)), ((0 : ℚ), (0 : ℚ))].filter
        (fun p => isNoisePt 1 1 [((1 : ℚ), (0 : ℚ)), ((0 : ℚ), (0 : ℚ))] p)) :=
  ⟨(dbscan_perm_invariant 1 1 _ _ (List.Perm.swap _ _ _)).2.1 (0, 0),
   (dbscan_perm_invariant 1 1 _ _ (List.Perm.swap _ _ _)).2.2.2.1⟩

/-- Modelled from the spec: arithmetic mean of a point cloud, used by the
centroid-based partitioner of section 4.3 (the splitting post-process is not
part of src/). -/
def centroidOf (pts : List (ℚ × ℚ)) : ℚ × ℚ :=
  ((pts.map Prod.fst).sum / pts.length, (pts.map Prod.snd).sum / pts.length)

/-- Index and value of the minimum of `f` over a list (first index on
ties). -/
def argminAux (f : α → ℚ) : List α → Option (Nat × ℚ)
  | [] => none
  | a :: rest =>
    match argminAux f rest with
    | none => some (0, f a)
    | some (j, v) => if f a ≤ v then some (0, f a) else some (j + 1, v)

/-- The index of the nearest of the centroids `cs` to `p`. -/
def nearestIdx (cs : List (ℚ × ℚ)) (p : ℚ × ℚ) : Nat :=
  ((argminAux (fun c => distSq p c) cs).map Prod.fst).getD 0

/-- Recompute each of the `k` centroids as the mean of its assigned cell,
keeping the previous centroid for an empty cell. -/
def updateCentroids (k : Nat) (cs : List (ℚ × ℚ)) (pts : List (ℚ × ℚ))
    (asn : List Nat) : List (ℚ × ℚ) :=
  (List.range k).map (fun j =>
    let grp := ((pts.zip asn).filter (fun pa => pa.2 = j)).map Prod.fst
    if grp.isEmpty then cs.getD j (0, 0) else centroidOf grp)

/-- Lloyd iteration with an iteration cap: assign every point to its nearest
centroid, recompute the centroids, repeat; the final assignment is
returned. -/
def lloyd : List (ℚ × ℚ) → List (ℚ × ℚ) → Nat → List Nat
  | cs, pts, 0 => pts.map (fun p => nearestIdx cs p)
  | cs, pts, fuel + 1 =>
    lloyd (updateCentroids cs.length cs pts (pts.map (fun p => nearestIdx cs p)))
      pts fuel

/-- Deterministic initial centroids (the spec allows a fixed seed for
reproducibility): `k` points of the cloud at evenly spread positions. -/
def initCentroids (k : Nat) (pts : List (ℚ × ℚ)) : List (ℚ × ℚ) :=
  (List.range k).map (fun j => pts.getD (j * pts.length / k) (0, 0))

/-- Modelled from the spec (section 4.3): the centroid-based partitioning of
a point cloud into `k` cells — iteratively assign each point to its nearest
of `k` centroids, recompute the centroids, repeat until an iteration cap. -/
def kmeansPartition (k fuel : Nat) (pts : List (ℚ × ℚ)) : List Nat :=
  lloyd (initCentroids k pts) pts fuel

/-- Relabel the rows carrying label `l` with the successive labels drawn
from `ls`, in row order. -/
def relabel : List LPoint → Int → List Int → List LPoint
  | [], _, _ => []
  | p :: rest, l, ls =>
    if p.cluster = l then
      LPoint.mk p.x p.y (ls.headD p.cluster) :: relabel rest l ls.tail
    else
      p :: relabel rest l ls

/-- The number of rows carrying label `l`. -/
def countLabel (df : List LPoint) (l : Int) : Nat :=
  (df.filter (fun p => p.cluster = l)).length

/-- Modelled from the spec (section 4.3): split one oversized cluster —
partition its points into `k = ceil(count / m)` cells with the
centroid-based partitioner and relabel cell `j` with `next + j`; the free
label counter moves past the whole freshly allocated block. -/
def splitOne (m fuel : Nat) (l : Int) (st : List LPoint × Int) :
    List LPoint × Int :=
  let df := st.1
  let next := st.2
  let pts := (df.filter (fun p => p.cluster = l)).map (fun p => (p.x, p.y))
  let k := (pts.length + m - 1) / m
  let asn := kmeansPartition k fuel pts
  (relabel df l (asn.map (fun (a : Nat) => next + (a : Int))), next + (k : Int))

/-- Process the oversized labels one after the other, threading the
dataframe and the free-label counter. -/
def processLabels (m fuel : Nat) :
    List Int → List LPoint × Int → List LPoint × Int
  | [], st => st
  | l :: rest, st => processLabels m fuel rest (splitOne m fuel l st)

/-- Modelled from the spec (section 4.3; the splitting post-process is not
part of src/): every non-noise label with more than `m` rows is split by the
centroid-based partitioner, and all fresh labels are drawn from one counter
placed above every label present in the input. -/
def split_large_clusters (m fuel : Nat) (df : List LPoint) : List LPoint :=
  let labels := (df.map LPoint.cluster).dedup
  let oversized := labels.filter (fun l =>
    decide (l ≠ -1) && decide (m < countLabel df l))
  let nextBase := (labels.foldl (fun a b => max a b) 0) + 1
  (processLabels m fuel oversized (df, nextBase)).1

theorem headD_eq_getD_zero (l : List α) (d : α) : l.headD d = l.getD 0 d := by
  cases l <;> rfl

theorem tail_getD (l : List α) (n : Nat) (d : α) :
    l.tail.getD n d = l.getD (n + 1) d := by
  cases l <;> rfl

theorem getD_mem_or (l : List α) (n : Nat) (d : α) :
    l.getD n d ∈ l ∨ l.getD n d = d := by
  by_cases h : n < l.length
  · left
    rw [List.getD_eq_getElem l d h]
    exact List.getElem_mem h
  · right
    rw [List.getD_eq_getElem?_getD, List.getElem?_eq_none (by omega)]
    rfl

theorem countLabel_append (a b : List LPoint) (l : Int) :
    countLabel (a ++ b) l = countLabel a l + countLabel b l := by
  simp [countLabel, List.filter_append]

theorem countLabel_cons (p : LPoint) (t : List LPoint) (l : Int) :
    countLabel (p :: t) l =
      (if p.cluster = l then 1 else 0) + countLabel t l := by
  by_cases h : p.cluster = l <;>
    simp [countLabel, List.filter_cons, h, Nat.add_comm]

theorem relabel_length (df : List LPoint) (l : Int) (ls : List Int) :
    (relabel df l ls).length = df.length := by
  induction df generalizing ls with
  | nil => rfl
  | cons p rest ih =>
    by_cases h : p.cluster = l <;> simp [relabel, h, ih]

theorem relabel_getD (df : List LPoint) (l : Int) (ls : List Int) (i : Nat)
    (hi : i < df.length) :
    (relabel df l ls).getD i default =
      (if (df.getD i default).cluster = l then
        LPoint.mk (df.getD i default).x (df.getD i default).y
          (ls.getD (countLabel (df.take i) l) (df.getD i default).cluster)
      else df.getD i default) := by
  induction df generalizing ls i with
  | nil => exact absurd hi (by simp)
  | cons p rest ih =>
    cases i with
    | zero =>
      by_cases h : p.cluster = l
      · simp [relabel, h, headD_eq_getD_zero, countLabel]
        cases ls <;> simp
      · simp [relabel, h]
    | succ i =>
      have hi' : i < rest.length := by simpa using hi
      by_cases h : p.cluster = l
      · simp only [relabel, if_pos h, List.getD_cons_succ, ih ls.tail i hi',
          List.take_succ_cons, countLabel_cons, if_pos h, tail_getD]
        rw [Nat.add_comm (countLabel (List.take i rest) l) 1]
      · simp only [relabel, if_neg h, List.getD_cons_succ, ih ls i hi',
          List.take_succ_cons, countLabel_cons, if_neg h, Nat.zero_add]

theorem relabel_forall_mem (df : List LPoint) (l : Int) (ls : List Int)
    (q : LPoint) (hq : q ∈ relabel df l ls) :
    q ∈ df ∨ ∃ p ∈ df, ∃ v : Int,
      (v ∈ ls ∨ v = p.cluster) ∧ q = LPoint.mk p.x p.y v := by
  obtain ⟨i, hi, rfl⟩ := List.mem_iff_getElem.1 hq
  have hlen : i < df.length := by rwa [relabel_length] at hi
  rw [← List.getD_eq_getElem (relabel df l ls) default hi]
  rw [relabel_getD df l ls i hlen]
  by_cases h : (df.getD i default).cluster = l
  · rw [if_pos h]
    right
    refine ⟨df.getD i default, ?_, _, getD_mem_or ls _ _, rfl⟩
    rw [List.getD_eq_getElem df default hlen]
    exact List.getElem_mem hlen
  · rw [if_neg h]
    left
    rw [List.getD_eq_getElem df default hlen]
    exact List.getElem_mem hlen

theorem relabel_countLabel (df : List LPoint) (l : Int) (ls : List Int)
    (l' : Int) (hne : l' ≠ l) (hvals : ∀ v ∈ ls, l' ≠ v) :
    countLabel (relabel df l ls) l' = countLabel df l' := by
  induction df generalizing ls with
  | nil => rfl
  | cons p rest ih =>
    by_cases h : p.cluster = l
    · have hhead : ¬((LPoint.mk p.x p.y (ls.headD p.cluster)).cluster = l') := by
        show ¬(ls.headD p.cluster = l')
        cases ls with
        | nil =>
          show ¬(p.cluster = l')
          rw [h]
          exact fun hc => hne hc.symm
        | cons v t =>
          exact fun hc => (hvals v (List.mem_cons_self v t)) hc.symm
      have htail : ∀ v ∈ ls.tail, l' ≠ v := by
        intro v hv
        cases ls with
        | nil => exact absurd hv (by simp)
        | cons w t => exact hvals v (List.mem_cons_of_mem w hv)
      simp only [relabel, if_pos h, countLabel_cons, if_neg hhead,
        ih ls.tail htail, Nat.zero_add]
      have hph : ¬(p.cluster = l') := by
        rw [h]
        exact fun hc => hne hc.symm
      rw [if_neg hph, Nat.zero_add]
    · simp only [relabel, if_neg h, countLabel_cons, ih ls hvals]

theorem argminAux_isSome_lt (f : α → ℚ) (l : List α) (h : l ≠ []) :
    ∃ j v, argminAux f l = some (j, v) ∧ j < l.length := by
  induction l with
  | nil => exact absurd rfl h
  | cons a rest ih =>
    rcases h2 : argminAux f rest with _ | ⟨j, v⟩
    · exact ⟨0, f a, by simp [argminAux, h2], by simp⟩
    · by_cases hle : f a ≤ v
      · exact ⟨0, f a, by simp [argminAux, h2, hle], by simp⟩
      · refine ⟨j + 1, v, by simp [argminAux, h2, hle], ?_⟩
        have hrne : rest ≠ [] := by
          rintro rfl
          simp [argminAux] at h2
        obtain ⟨j', v', hjv, hlt⟩ := ih hrne
        rw [h2] at hjv
        have hj : j = j' := by
          have := Option.some.inj hjv
          exact (Prod.mk.injEq _ _ _ _ ▸ this).1
        simp only [List.length_cons]
        omega

theorem nearestIdx_lt (cs : List (ℚ × ℚ)) (p : ℚ × ℚ) (h : cs ≠ []) :
    nearestIdx cs p < cs.length := by
  obtain ⟨j, v, hjv, hlt⟩ := argminAux_isSome_lt (fun c => distSq p c) cs h
  simpa [nearestIdx, hjv] using hlt

theorem updateCentroids_length (k : Nat) (cs pts : List (ℚ × ℚ))
    (asn : List Nat) : (updateCentroids k cs pts asn).length = k := by
  simp [updateCentroids]

theorem lloyd_length (cs pts : List (ℚ × ℚ)) (fuel : Nat) :
    (lloyd cs pts fuel).length = pts.length := by
  induction fuel generalizing cs with
  | zero => simp [lloyd]
  | succ n ih => simp [lloyd, ih]

theorem lloyd_mem_lt (fuel : Nat) : ∀ (cs pts : List (ℚ × ℚ)), cs ≠ [] →
    ∀ a ∈ lloyd cs pts fuel, a < cs.length := by
  induction fuel with
  | zero =>
    intro cs pts h a ha
    simp only [lloyd, List.mem_map] at ha
    obtain ⟨p, _, rfl⟩ := ha
    exact nearestIdx_lt cs p h
  | succ n ih =>
    intro cs pts h a ha
    simp only [lloyd] at ha
    have hlen : (updateCentroids cs.length cs pts
        (pts.map (fun p => nearestIdx cs p))).length = cs.length :=
      updateCentroids_length _ _ _ _
    have hne : updateCentroids cs.length cs pts
        (pts.map (fun p => nearestIdx cs p)) ≠ [] := by
      intro hnil
      apply h
      have h0 := congrArg List.length hnil
      rw [hlen] at h0
      exact List.eq_nil_of_length_eq_zero h0
    have hres := ih _ pts hne a ha
    rwa [hlen] at hres

theorem kmeansPartition_length (k fuel : Nat) (pts : List (ℚ × ℚ)) :
    (kmeansPartition k fuel pts).length = pts.length :=
  lloyd_length _ _ _

theorem kmeansPartition_mem_lt (k fuel : Nat) (pts : List (ℚ × ℚ))
    (hk : 0 < k) : ∀ a ∈ kmeansPartition k fuel pts, a < k := by
  intro a ha
  have hlen : (initCentroids k pts).length = k := by simp [initCentroids]
  have hne : initCentroids k pts ≠ [] := by
    intro h
    rw [h] at hlen
    simp at hlen
    omega
  have hres := lloyd_mem_lt fuel _ pts hne a ha
  rwa [hlen] at hres

theorem foldl_max_init_le (l : List Int) (a : Int) :
    a ≤ l.foldl (fun x y => max x y) a := by
  induction l generalizing a with
  | nil => exact le_refl a
  | cons b t ih => exact le_trans (le_max_left a b) (ih (max a b))

theorem mem_le_foldl_max (l : List Int) (a : Int) :
    ∀ x ∈ l, x ≤ l.foldl (fun x y => max x y) a := by
  induction l generalizing a with
  | nil =>
    intro x hx
    exact absurd hx (by simp)
  | cons b t ih =>
    intro x hx
    rcases List.mem_cons.1 hx with rfl | hx2
    · exact le_trans (le_max_right a x) (foldl_max_init_le t (max a x))
    · exact ih (max a b) x hx2

theorem countLabel_take_lt (df : List LPoint) (l : Int) (i : Nat)
    (hi : i < df.length) (hl : (df.getD i default).cluster = l) :
    countLabel (df.take i) l < countLabel df l := by
  have hdi : df.getD i default = df[i] := List.getD_eq_getElem df default hi
  have hone : 0 < countLabel (df.drop i) l := by
    rw [List.drop_eq_getElem_cons hi, countLabel_cons, if_pos (hdi ▸ hl)]
    omega
  have happ := countLabel_append (df.take i) (df.drop i) l
  rw [List.take_append_drop] at happ
  omega

theorem getD_map_add (next : Int) (l : List Nat) (i : Nat) (d : Int)
    (hi : i < l.length) :
    ((l.map (fun (a : Nat) => next + (a : Int))).getD i d) =
      next + ((l.getD i 0 : Nat) : Int) := by
  rw [List.getD_eq_getElem?_getD, List.getElem?_map,
    List.getElem?_eq_getElem hi]
  rw [List.getD_eq_getElem?_getD, List.getElem?_eq_getElem hi]
  rfl

theorem splitOne_fst (m fuel : Nat) (l : Int) (df : List LPoint) (next : Int) :
    (splitOne m fuel l (df, next)).1 =
      relabel df l
        ((kmeansPartition
          ((((df.filter (fun p => p.cluster = l)).map
            (fun p => (p.x, p.y))).length + m - 1) / m) fuel
          ((df.filter (fun p => p.cluster = l)).map (fun p => (p.x, p.y)))).map
          (fun (a : Nat) => next + (a : Int))) := rfl

theorem splitOne_snd (m fuel : Nat) (l : Int) (df : List LPoint) (next : Int) :
    (splitOne m fuel l (df, next)).2 =
      next + (((((df.filter (fun p => p.cluster = l)).map
        (fun p => (p.x, p.y))).length + m - 1) / m : Nat) : Int) := rfl

theorem filterMap_length_eq_countLabel (df : List LPoint) (l : Int) :
    ((df.filter (fun p => p.cluster = l)).map
      (fun p => (p.x, p.y))).length = countLabel df l := by
  simp [countLabel]

theorem splitOne_length (m fuel : Nat) (l : Int) (df : List LPoint)
    (next : Int) : (splitOne m fuel l (df, next)).1.length = df.length := by
  rw [splitOne_fst]
  exact relabel_length _ _ _

theorem splitOne_snd_eq (m fuel : Nat) (l : Int) (df : List LPoint)
    (next : Int) : (splitOne m fuel l (df, next)).2 =
      next + (((countLabel df l + m - 1) / m : Nat) : Int) := by
  rw [splitOne_snd, filterMap_length_eq_countLabel]

theorem ceil_pos_of_lt (m c : Nat) (hm : 0 < m) (hc : m < c) :
    0 < (c + m - 1) / m := by
  have h1 : 1 ≤ (c + m - 1) / m := (Nat.le_div_iff_mul_le hm).2 (by omega)
  omega

theorem splitOne_getD_untouched (m fuel : Nat) (l : Int) (df : List LPoint)
    (next : Int) (i : Nat) (hi : i < df.length)
    (hne : (df.getD i default).cluster ≠ l) :
    (splitOne m fuel l (df, next)).1.getD i default = df.getD i default := by
  rw [splitOne_fst, relabel_getD _ _ _ i hi, if_neg hne]

theorem splitOne_getD_touched (m fuel : Nat) (l : Int) (df : List LPoint)
    (next : Int) (hm : 0 < m) (i : Nat) (hi : i < df.length)
    (heq : (df.getD i default).cluster = l)
    (hcount : m < countLabel df l) :
    ((splitOne m fuel l (df, next)).1.getD i default).x =
      (df.getD i default).x ∧
    ((splitOne m fuel l (df, next)).1.getD i default).y =
      (df.getD i default).y ∧
    next ≤ ((splitOne m fuel l (df, next)).1.getD i default).cluster ∧
    ((splitOne m fuel l (df, next)).1.getD i default).cluster <
      next + (((countLabel df l + m - 1) / m : Nat) : Int) := by
  rw [splitOne_fst, relabel_getD _ _ _ i hi, if_pos heq]
  have hptslen := filterMap_length_eq_countLabel df l
  rw [hptslen]
  have hkpos : 0 < (countLabel df l + m - 1) / m :=
    ceil_pos_of_lt m (countLabel df l) hm hcount
  have hj : countLabel (df.take i) l <
      (kmeansPartition ((countLabel df l + m - 1) / m) fuel
        ((df.filter (fun p => p.cluster = l)).map
          (fun p => (p.x, p.y)))).length := by
    rw [kmeansPartition_length, filterMap_length_eq_countLabel]
    exact countLabel_take_lt df l i hi heq
  have hjm : countLabel (df.take i) l <
      ((kmeansPartition ((countLabel df l + m - 1) / m) fuel
        ((df.filter (fun p => p.cluster = l)).map
          (fun p => (p.x, p.y)))).map (fun (a : Nat) => next + (a : Int))).length := by
    rwa [List.length_map]
  have hgd : (((kmeansPartition ((countLabel df l + m - 1) / m) fuel
      ((df.filter (fun p => p.cluster = l)).map
        (fun p => (p.x, p.y)))).map (fun (a : Nat) => next + (a : Int))).getD
      (countLabel (df.take i) l) (df.getD i default).cluster) =
      next + (((kmeansPartition ((countLabel df l + m - 1) / m) fuel
        ((df.filter (fun p => p.cluster = l)).map
          (fun p => (p.x, p.y)))).getD (countLabel (df.take i) l) 0 : Nat) :
            Int) :=
    getD_map_add next _ _ _ hj
  have hmem : (kmeansPartition ((countLabel df l + m - 1) / m) fuel
      ((df.filter (fun p => p.cluster = l)).map
        (fun p => (p.x, p.y)))).getD (countLabel (df.take i) l) 0 ∈
      kmeansPartition ((countLabel df l + m - 1) / m) fuel
        ((df.filter (fun p => p.cluster = l)).map (fun p => (p.x, p.y))) := by
    rw [List.getD_eq_getElem _ _ hj]
    exact List.getElem_mem hj
  have hlt := kmeansPartition_mem_lt ((countLabel df l + m - 1) / m) fuel
    ((df.filter (fun p => p.cluster = l)).map (fun p => (p.x, p.y)))
    hkpos _ hmem
  refine ⟨rfl, rfl, ?_, ?_⟩
  · show next ≤ (LPoint.mk _ _ _).cluster
    rw [show (LPoint.mk (df.getD i default).x (df.getD i default).y
      (((kmeansPartition ((countLabel df l + m - 1) / m) fuel
        ((df.filter (fun p => p.cluster = l)).map
          (fun p => (p.x, p.y)))).map (fun (a : Nat) => next + (a : Int))).getD
        (countLabel (df.take i) l) (df.getD i default).cluster)).cluster =
      ((kmeansPartition ((countLabel df l + m - 1) / m) fuel
        ((df.filter (fun p => p.cluster = l)).map
          (fun p => (p.x, p.y)))).map (fun (a : Nat) => next + (a : Int))).getD
        (countLabel (df.take i) l) (df.getD i default).cluster from rfl]
    rw [hgd]
    exact le_add_of_nonneg_right (Int.natCast_nonneg _)
  · show (LPoint.mk _ _ _).cluster < _
    rw [show (LPoint.mk (df.getD i default).x (df.getD i default).y
      (((kmeansPartition ((countLabel df l + m - 1) / m) fuel
        ((df.filter (fun p => p.cluster = l)).map
          (fun p => (p.x, p.y)))).map (fun (a : Nat) => next + (a : Int))).getD
        (countLabel (df.take i) l) (df.getD i default).cluster)).cluster =
      ((kmeansPartition ((countLabel df l + m - 1) / m) fuel
        ((df.filter (fun p => p.cluster = l)).map
          (fun p => (p.x, p.y)))).map (fun (a : Nat) => next + (a : Int))).getD
        (countLabel (df.take i) l) (df.getD i default).cluster from rfl]
    rw [hgd]
    have hcast : (((kmeansPartition ((countLabel df l + m - 1) / m) fuel
        ((df.filter (fun p => p.cluster = l)).map
          (fun p => (p.x, p.y)))).getD (countLabel (df.take i) l) 0 : Nat) :
        Int) < (((countLabel df l + m - 1) / m : Nat) : Int) := by
      exact_mod_cast hlt
    omega

theorem splitOne_countLabel (m fuel : Nat) (l : Int) (df : List LPoint)
    (next : Int) (l' : Int) (hne : l' ≠ l) (hlt : l' < next) :
    countLabel (splitOne m fuel l (df, next)).1 l' = countLabel df l' := by
  rw [splitOne_fst]
  refine relabel_countLabel df l _ l' hne ?_
  intro v hv
  obtain ⟨a, _, rfl⟩ := List.mem_map.1 hv
  have h0 : (0 : Int) ≤ (a : Int) := Int.natCast_nonneg a
  omega

theorem splitOne_forall_cluster_lt (m fuel : Nat) (l : Int) (df : List LPoint)
    (next : Int) (hm : 0 < m) (hcount : m < countLabel df l)
    (hall : ∀ p ∈ df, p.cluster < next) :
    ∀ q ∈ (splitOne m fuel l (df, next)).1,
      q.cluster < (splitOne m fuel l (df, next)).2 := by
  intro q hq
  rw [splitOne_snd_eq]
  rw [splitOne_fst] at hq
  have hkpos : 0 < (countLabel df l + m - 1) / m :=
    ceil_pos_of_lt m (countLabel df l) hm hcount
  have hk0 : (0 : Int) ≤ (((countLabel df l + m - 1) / m : Nat) : Int) :=
    Int.natCast_nonneg _
  rcases relabel_forall_mem _ _ _ q hq with h1 | ⟨p, hp, v, hv, rfl⟩
  · have := hall q h1
    omega
  · rcases hv with hv | rfl
    · obtain ⟨a, ha, rfl⟩ := List.mem_map.1 hv
      have hlt := kmeansPartition_mem_lt _ fuel _
        (by rwa [filterMap_length_eq_countLabel]) a ha
      show next + (a : Int) < _
      rw [filterMap_length_eq_countLabel] at hlt
      have : ((a : Nat) : Int) < (((countLabel df l + m - 1) / m : Nat) : Int) := by
        exact_mod_cast hlt
      omega
    · have := hall p hp
      show p.cluster < _
      omega

theorem processLabels_spec (m fuel : Nat) (hm : 0 < m) :
    ∀ (ls : List Int) (df : List LPoint) (next : Int),
      ls.Nodup →
      (∀ l ∈ ls, m < countLabel df l) →
      (∀ l ∈ ls, l < next) →
      (∀ p ∈ df, p.cluster < next) →
      (processLabels m fuel ls (df, next)).1.length = df.length ∧
      next ≤ (processLabels m fuel ls (df, next)).2 ∧
      (∀ i, i < df.length → (df.getD i default).cluster ∉ ls →
        (processLabels m fuel ls (df, next)).1.getD i default =
          df.getD i default) ∧
      (∀ i, i < df.length → (df.getD i default).cluster ∈ ls →
        ((processLabels m fuel ls (df, next)).1.getD i default).x =
          (df.getD i default).x ∧
        ((processLabels m fuel ls (df, next)).1.getD i default).y =
          (df.getD i default).y ∧
        next ≤
          ((processLabels m fuel ls (df, next)).1.getD i default).cluster ∧
        ((processLabels m fuel ls (df, next)).1.getD i default).cluster <
          (processLabels m fuel ls (df, next)).2) ∧
      (∀ l ∈ ls, ∃ base : Int, next ≤ base ∧
        (∀ i, i < df.length → (df.getD i default).cluster = l →
          base ≤
            ((processLabels m fuel ls (df, next)).1.getD i default).cluster ∧
          ((processLabels m fuel ls (df, next)).1.getD i default).cluster <
            base + (((countLabel df l + m - 1) / m : Nat) : Int))) ∧
      (∀ i j, i < df.length → j < df.length →
        (df.getD i default).cluster ∈ ls →
        (df.getD j default).cluster ∈ ls →
        (df.getD i default).cluster ≠ (df.getD j default).cluster →
        ((processLabels m fuel ls (df, next)).1.getD i default).cluster ≠
          ((processLabels m fuel ls (df, next)).1.getD j default).cluster) := by
  intro ls
  induction ls with
  | nil =>
    intro df next _ _ _ _
    exact ⟨rfl, le_refl _, fun i _ _ => rfl,
      fun i _ hmem => absurd hmem (by simp),
      fun l hl => absurd hl (by simp),
      fun i j _ _ hmi _ _ => absurd hmi (by simp)⟩
  | cons l rest ih =>
    intro df next hnodup hcount hlt hall
    have hlmem : l ∈ l :: rest := List.mem_cons_self l rest
    have hclcount : m < countLabel df l := hcount l hlmem
    have hlnext : l < next := hlt l hlmem
    have hstep : processLabels m fuel (l :: rest) (df, next) =
        processLabels m fuel rest
          ((splitOne m fuel l (df, next)).1, (splitOne m fuel l (df, next)).2) := by
      rw [processLabels]
    have hlen1 : (splitOne m fuel l (df, next)).1.length = df.length :=
      splitOne_length m fuel l df next
    have hsnd : (splitOne m fuel l (df, next)).2 =
        next + (((countLabel df l + m - 1) / m : Nat) : Int) :=
      splitOne_snd_eq m fuel l df next
    have hnext_le : next ≤ (splitOne m fuel l (df, next)).2 := by
      rw [hsnd]
      exact le_add_of_nonneg_right (Int.natCast_nonneg _)
    have hlnotr : l ∉ rest := (List.nodup_cons.1 hnodup).1
    have hrest_ne : ∀ l' ∈ rest, l' ≠ l := by
      intro l' h he
      exact hlnotr (he ▸ h)
    have hrest_lt_next : ∀ l' ∈ rest, l' < next :=
      fun l' h => hlt l' (List.mem_cons_of_mem l h)
    have hrest_lt : ∀ l' ∈ rest, l' < (splitOne m fuel l (df, next)).2 :=
      fun l' h => lt_of_lt_of_le (hrest_lt_next l' h) hnext_le
    have hcount1 : ∀ l' ∈ rest,
        countLabel (splitOne m fuel l (df, next)).1 l' = countLabel df l' :=
      fun l' h => splitOne_countLabel m fuel l df next l' (hrest_ne l' h)
        (hrest_lt_next l' h)
    have hcount1' : ∀ l' ∈ rest,
        m < countLabel (splitOne m fuel l (df, next)).1 l' := by
      intro l' h
      rw [hcount1 l' h]
      exact hcount l' (List.mem_cons_of_mem l h)
    have hall1 : ∀ p ∈ (splitOne m fuel l (df, next)).1,
        p.cluster < (splitOne m fuel l (df, next)).2 :=
      splitOne_forall_cluster_lt m fuel l df next hm hclcount hall
    have huntouched : ∀ i, i < df.length →
        (df.getD i default).cluster ≠ l →
        (splitOne m fuel l (df, next)).1.getD i default = df.getD i default :=
      fun i hi hne => splitOne_getD_untouched m fuel l df next i hi hne
    have htouched := fun (i : Nat) (hi : i < df.length)
        (heq : (df.getD i default).cluster = l) =>
      splitOne_getD_touched m fuel l df next hm i hi heq hclcount
    obtain ⟨IH1, IH2, IH3, IH4, IH5, IH6⟩ :=
      ih (splitOne m fuel l (df, next)).1 (splitOne m fuel l (df, next)).2
        (List.nodup_cons.1 hnodup).2 hcount1' hrest_lt hall1
    -- cluster of a touched row is outside rest
    have htouched_notr : ∀ i, i < df.length →
        (df.getD i default).cluster = l →
        ((splitOne m fuel l (df, next)).1.getD i default).cluster ∉ rest := by
      intro i hi heq hmem
      have hb := (htouched i hi heq).2.2.1
      have := hrest_lt_next _ hmem
      omega
    rw [hstep]
    refine ⟨?_, ?_, ?_, ?_, ?_, ?_⟩
    · rw [IH1, hlen1]
    · exact le_trans hnext_le IH2
    · intro i hi hnotin
      have hne : (df.getD i default).cluster ≠ l :=
        fun he => hnotin (he ▸ List.mem_cons_self l rest)
      have hnr : (df.getD i default).cluster ∉ rest :=
        fun hmem => hnotin (List.mem_cons_of_mem l hmem)
      have hdf1 := huntouched i hi hne
      have := IH3 i (by omega) (by rw [hdf1]; exact hnr)
      rw [this, hdf1]
    · intro i hi hmem
      rcases List.mem_cons.1 hmem with heq | hmemr
      · -- the row belongs to the cluster split in this step
        obtain ⟨hx, hy, hlo, hhi⟩ := htouched i hi heq
        have hkeep := IH3 i (by omega) (htouched_notr i hi heq)
        rw [hkeep]
        rw [← hsnd] at hhi
        exact ⟨hx, hy, hlo, lt_of_lt_of_le hhi IH2⟩
      · -- the row belongs to a later oversized cluster
        have hne : (df.getD i default).cluster ≠ l := hrest_ne _ hmemr
        have hdf1 := huntouched i hi hne
        obtain ⟨hx, hy, hlo, hhi⟩ := IH4 i (by omega) (by rw [hdf1]; exact hmemr)
        rw [hdf1] at hx hy
        exact ⟨hx, hy, le_trans hnext_le hlo, hhi⟩
    · intro l' hl'
      rcases List.mem_cons.1 hl' with rfl | hmemr
      · refine ⟨next, le_refl _, ?_⟩
        intro i hi heq
        obtain ⟨_, _, hlo, hhi⟩ := htouched i hi heq
        have hkeep := IH3 i (by omega) (htouched_notr i hi heq)
        rw [hkeep]
        exact ⟨hlo, hhi⟩
      · obtain ⟨base, hbase, hblock⟩ := IH5 l' hmemr
        refine ⟨base, le_trans hnext_le hbase, ?_⟩
        intro i hi heq
        have hne : (df.getD i default).cluster ≠ l := heq ▸ hrest_ne _ hmemr
        have hdf1 := huntouched i hi hne
        have hres := hblock i (by omega) (by rw [hdf1]; exact heq)
        rwa [hcount1 l' hmemr] at hres
    · intro i j hi hj hmi hmj hne
      rcases List.mem_cons.1 hmi with heqi | hmri <;>
        rcases List.mem_cons.1 hmj with heqj | hmrj
      · exact absurd (heqi.trans heqj.symm) hne
      · -- i split now, j split later: labels of i lie below next1, of j at or above
        obtain ⟨_, _, _, hhi_i⟩ := htouched i hi heqi
        have hkeep := IH3 i (by omega) (htouched_notr i hi heqi)
        rw [hkeep]
        have hnej : (df.getD j default).cluster ≠ l := hrest_ne _ hmrj
        have hdf1j := huntouched j hj hnej
        obtain ⟨_, _, hloj, _⟩ := IH4 j (by omega) (by rw [hdf1j]; exact hmrj)
        omega
      · obtain ⟨_, _, _, hhi_j⟩ := htouched j hj heqj
        have hkeep := IH3 j (by omega) (htouched_notr j hj heqj)
        rw [hkeep]
        have hnei : (df.getD i default).cluster ≠ l := hrest_ne _ hmri
        have hdf1i := huntouched i hi hnei
        obtain ⟨_, _, hloi, _⟩ := IH4 i (by omega) (by rw [hdf1i]; exact hmri)
        omega
      · have hnei : (df.getD i default).cluster ≠ l := hrest_ne _ hmri
        have hnej : (df.getD j default).cluster ≠ l := hrest_ne _ hmrj
        have hdf1i := huntouched i hi hnei
        have hdf1j := huntouched j hj hnej
        exact IH6 i j (by omega) (by omega) (by rw [hdf1i]; exact hmri)
          (by rw [hdf1j]; exact hmrj) (by rw [hdf1i, hdf1j]; exact hne)

/-- C4: in the cluster-splitting post-process (modelled from the spec,
section 4.3 — this stage is not part of src/), the total number of rows is
unchanged; noise rows and rows of clusters of size at most `m` are left
exactly as they were; every row of an oversized cluster keeps its
coordinates and receives a label that is strictly above every pre-existing
label; the fresh labels of an oversized cluster occupy a block of
`k = ceil(count / m)` labels starting at a base above every pre-existing
label; and rows originating from different oversized clusters never share a
fresh label. -/
theorem split_large_clusters_spec (m fuel : Nat) (df : List LPoint)
    (hm : 0 < m) :
    (split_large_clusters m fuel df).length = df.length ∧
    (∀ i, i < df.length →
      ((df.getD i default).cluster = -1 ∨
        countLabel df (df.getD i default).cluster ≤ m) →
      (split_large_clusters m fuel df).getD i default = df.getD i default) ∧
    (∀ i, i < df.length → (df.getD i default).cluster ≠ -1 →
      m < countLabel df (df.getD i default).cluster →
      ((split_large_clusters m fuel df).getD i default).x =
        (df.getD i default).x ∧
      ((split_large_clusters m fuel df).getD i default).y =
        (df.getD i default).y ∧
      (∀ p ∈ df, p.cluster <
        ((split_large_clusters m fuel df).getD i default).cluster)) ∧
    (∀ l : Int, l ≠ -1 → m < countLabel df l →
      ∃ base : Int, (∀ p ∈ df, p.cluster < base) ∧
        (∀ i, i < df.length → (df.getD i default).cluster = l →
          base ≤ ((split_large_clusters m fuel df).getD i default).cluster ∧
          ((split_large_clusters m fuel df).getD i default).cluster <
            base + ((countLabel df l ⌈/⌉ m : Nat) : Int))) ∧
    (∀ i j, i < df.length → j < df.length →
      (df.getD i default).cluster ≠ -1 →
      (df.getD j default).cluster ≠ -1 →
      m < countLabel df (df.getD i default).cluster →
      m < countLabel df (df.getD j default).cluster →
      (df.getD i default).cluster ≠ (df.getD j default).cluster →
      ((split_large_clusters m fuel df).getD i default).cluster ≠
        ((split_large_clusters m fuel df).getD j default).cluster) := by
  set labels := (df.map LPoint.cluster).dedup with hlabels
  set oversized := labels.filter (fun l =>
    decide (l ≠ -1) && decide (m < countLabel df l)) with hover
  set nextBase := labels.foldl (fun a b => max a b) 0 + 1 with hnb
  have hrec : split_large_clusters m fuel df =
      (processLabels m fuel oversized (df, nextBase)).1 := rfl
  have hnodup : oversized.Nodup := (List.nodup_dedup _).filter _
  have hmemover : ∀ l ∈ oversized, l ≠ -1 ∧ m < countLabel df l := by
    intro l h
    have h2 := (List.mem_filter.1 h).2
    rw [Bool.and_eq_true, decide_eq_true_eq, decide_eq_true_eq] at h2
    exact h2
  have hcnt : ∀ l ∈ oversized, m < countLabel df l :=
    fun l h => (hmemover l h).2
  have hlab_lt : ∀ l ∈ labels, l < nextBase := by
    intro l h
    have := mem_le_foldl_max labels 0 l h
    omega
  have hover_lt : ∀ l ∈ oversized, l < nextBase :=
    fun l h => hlab_lt l (List.mem_filter.1 h).1
  have hall : ∀ p ∈ df, p.cluster < nextBase := fun p hp =>
    hlab_lt _ (List.mem_dedup.2 (List.mem_map_of_mem LPoint.cluster hp))
  have hmemover' : ∀ i, i < df.length →
      ((df.getD i default).cluster ∈ oversized ↔
        ((df.getD i default).cluster ≠ -1 ∧
          m < countLabel df (df.getD i default).cluster)) := by
    intro i hi
    constructor
    · exact hmemover _
    · rintro ⟨h1, h2⟩
      apply List.mem_filter.2
      refine ⟨?_, ?_⟩
      · apply List.mem_dedup.2
        apply List.mem_map_of_mem
        rw [List.getD_eq_getElem df default hi]
        exact List.getElem_mem hi
      · rw [Bool.and_eq_true, decide_eq_true_eq, decide_eq_true_eq]
        exact ⟨h1, h2⟩
  obtain ⟨S1, S2, S3, S4, S5, S6⟩ :=
    processLabels_spec m fuel hm oversized df nextBase hnodup hcnt hover_lt hall
  rw [hrec]
  refine ⟨S1, ?_, ?_, ?_, ?_⟩
  · intro i hi hcond
    apply S3 i hi
    rw [hmemover' i hi]
    rintro ⟨h1, h2⟩
    rcases hcond with hc | hc
    · exact h1 hc
    · omega
  · intro i hi h1 h2
    have hmem := (hmemover' i hi).2 ⟨h1, h2⟩
    obtain ⟨hx, hy, hlo, _⟩ := S4 i hi hmem
    refine ⟨hx, hy, ?_⟩
    intro p hp
    exact lt_of_lt_of_le (hall p hp) hlo
  · intro l h1 h2
    have hocc : l ∈ labels := by
      have hpos : 0 < (df.filter (fun p => p.cluster = l)).length :=
        lt_of_le_of_lt (Nat.zero_le m) h2
      obtain ⟨p, hp⟩ := List.exists_mem_of_length_pos hpos
      have hp2 := List.mem_filter.1 hp
      have hcl : p.cluster = l := by simpa using hp2.2
      exact List.mem_dedup.2 (hcl ▸ List.mem_map_of_mem LPoint.cluster hp2.1)
    have hmem : l ∈ oversized := by
      apply List.mem_filter.2
      refine ⟨hocc, ?_⟩
      rw [Bool.and_eq_true, decide_eq_true_eq, decide_eq_true_eq]
      exact ⟨h1, h2⟩
    obtain ⟨base, hbase, hblock⟩ := S5 l hmem
    refine ⟨base, fun p hp => lt_of_lt_of_le (hall p hp) hbase, ?_⟩
    intro i hi heq
    exact hblock i hi heq
  · intro i j hi hj h1i h1j h2i h2j hne
    exact S6 i j hi hj ((hmemover' i hi).2 ⟨h1i, h2i⟩)
      ((hmemover' j hj).2 ⟨h1j, h2j⟩) hne

/-- C4 witness: on a concrete dataframe with a two-row cluster, `m = 1` and
one noise row, the splitter keeps the row count and the noise row. -/
theorem split_large_clusters_spec_w :
    (split_large_clusters 1 0
      [LPoint.mk 0 0 0, LPoint.mk 10 0 0, LPoint.mk 5 5 (-1)]).length = 3 ∧
    (split_large_clusters 1 0
      [LPoint.mk 0 0 0, LPoint.mk 10 0 0, LPoint.mk 5 5 (-1)]).getD 2 default =
      LPoint.mk 5 5 (-1) :=
  ⟨((split_large_clusters_spec 1 0
      [LPoint.mk 0 0 0, LPoint.mk 10 0 0, LPoint.mk 5 5 (-1)]
      (by norm_num)).1).trans (by rfl),
   by
     have h := (split_large_clusters_spec 1 0
       [LPoint.mk 0 0 0, LPoint.mk 10 0 0, LPoint.mk 5 5 (-1)]
       (by norm_num)).2.1 2 (by norm_num) (Or.inl (by decide))
     rw [h]
     rfl⟩
